import Mathlib

/-!
Verification development for the Multi-Agent Classroom Scheduling System
(MACSS).  The definitions below are a shallow embedding of the Python
sources: `utils.py`, `preference_scoring.py`, `agents.py`, `objective.py`,
`csp_solver.py` and `negotiation.py`.  Python floats are modelled as
rationals, Python dicts either as association lists (when a missing key,
i.e. a `KeyError`, is observable behaviour) or as total functions (when the
surrounding claim assumes a well-formed domain), and fallible code returns
`Option`.
-/

namespace MACSS

/-! ### Data model (`data_model.py`, spec section 3)

A time slot is a set of weekday codes, a start time (parsed from the
source's `"HH:MM"` string as an hour and a minute field) and a duration in
minutes. -/

structure TimeSlot where
  days : List String
  startH : Nat
  startM : Nat
  durationMin : Nat
deriving DecidableEq

/-- Minutes since midnight of the slot start (`datetime.strptime` in
`utils.get_interval` only ever compares times of day, which orders exactly
like minutes since midnight). -/
def TimeSlot.startMinutes (ts : TimeSlot) : Nat :=
  60 * ts.startH + ts.startM

/-- End of the slot: start plus duration (`start_dt + timedelta(minutes=duration)`). -/
def TimeSlot.endMinutes (ts : TimeSlot) : Nat :=
  ts.startMinutes + ts.durationMin

/-- The `time_slot_details` dict, modelled as a total map (the claims
about it presuppose a well-formed domain, where every slot id that is
looked up is present). -/
abbrev TimeSlotMap := String → TimeSlot

/-- One course assignment: the inner `{"time": ts, "room": room}` dict. -/
structure Assign where
  time : String
  room : String
deriving DecidableEq

/-- A schedule: the Python dict `course -> {"time", "room"}`, as an
association list in insertion order (Python dicts preserve it). -/
abbrev Schedule := List (String × Assign)

/-- Association-list lookup, the embedding of a Python dict subscript
`d[k]` (`none` models the `KeyError`). -/
def lookupStr {β : Type} (k : String) : List (String × β) → Option β
  | [] => none
  | (k2, v) :: rest => if k2 = k then some v else lookupStr k rest

/-! ### Overlap predicate (`utils.py`, spec section 4.1) -/

/-- `utils.get_interval`: (start, end) in minutes since midnight. -/
def get_interval (tsId : String) (details : TimeSlotMap) : Nat × Nat :=
  let d := details tsId
  (d.startMinutes, d.startMinutes + d.durationMin)

/-- `set(details_1['days']) & set(details_2['days'])` is nonempty. -/
def hasCommonDay (d1 d2 : TimeSlot) : Bool :=
  d1.days.any (fun d => decide (d ∈ d2.days))

/-- `utils.timeslots_overlap`: false when the weekday sets are disjoint,
otherwise the strict half-open interval test `start1 < end2 ∧ start2 < end1`.
`utils.py` is the canonical, total implementation; `csp_solver.py` carries
a drifted local copy whose semantics differ — see `csp_timeslots_overlap`. -/
def timeslots_overlap (ts1 ts2 : String) (details : TimeSlotMap) : Bool :=
  let d1 := details ts1
  let d2 := details ts2
  if !hasCommonDay d1 d2 then
    false
  else
    let i1 := get_interval ts1 details
    let i2 := get_interval ts2 details
    decide (i1.1 < i2.2 ∧ i2.1 < i1.2)

/-! ### Preference records and scoring (`preference_scoring.py`, spec 4.2)

A preference record is the Python dict with up to three keys; a field is
`none` when the key is absent, so `dict.get(key, default)` becomes
`Option.getD`.  `Prefs.isEmpty` is Python's truthiness test
`not self.preferences` used in `agents.ProfessorAgent._score_time_slot`. -/

structure Prefs where
  time_of_day : Option String
  preferred_days : Option (List String)
  avoid_days : Option (List String)
deriving DecidableEq

def Prefs.isEmpty (p : Prefs) : Bool :=
  p.time_of_day.isNone && p.preferred_days.isNone && p.avoid_days.isNone

/-- `preference_scoring.score_time_of_day`. -/
def score_time_of_day (ts : TimeSlot) (prefs : Prefs) : ℚ :=
  let timePref := prefs.time_of_day.getD ("no_preference")
  if timePref = "no_preference" then 1/2
  else
    let hour := ts.startH
    if timePref = "morning" then
      if 7 ≤ hour ∧ hour < 12 then 1 else 1/5
    else if timePref = "afternoon" then
      if 12 ≤ hour ∧ hour < 17 then 1 else 1/5
    else 1/2

/-- `preference_scoring.score_days_of_week`.  Python works on `set`s, so
day lists are deduplicated before intersecting and counting. -/
def score_days_of_week (ts : TimeSlot) (prefs : Prefs) : ℚ :=
  let preferred := (prefs.preferred_days.getD []).dedup
  let avoid := (prefs.avoid_days.getD []).dedup
  let slotDays := ts.days.dedup
  if slotDays.any (fun d => decide (d ∈ avoid)) then 1/10
  else if !preferred.isEmpty && slotDays.any (fun d => decide (d ∈ preferred)) then
    let matchFrac : ℚ :=
      ((slotDays.filter (fun d => decide (d ∈ preferred))).length : ℚ) / (slotDays.length : ℚ)
    1/2 + matchFrac * (1/2)
  else if preferred.isEmpty && avoid.isEmpty then 1/2
  else 3/10

/-- Python's `round(x, 3)`: round half to even at the third decimal.  (On
the rationals reachable here this coincides with CPython's behaviour on
the corresponding binary floats whenever the value is exactly
representable; no claim depends on the tie-breaking direction.) -/
def roundHalfEven (x : ℚ) : ℤ :=
  let n := ⌊x⌋
  let f := x - (n : ℚ)
  if f < 1/2 then n
  else if 1/2 < f then n + 1
  else if n % 2 = 0 then n else n + 1

def pyRound3 (x : ℚ) : ℚ := ((roundHalfEven (x * 1000) : ℤ) : ℚ) / 1000

/-- `preference_scoring.calculate_preference_score`:
`round(0.5*time_score + 0.5*day_score, 3)`. -/
def calculate_preference_score (tsId : String) (prefs : Prefs) (details : TimeSlotMap) : ℚ :=
  let ts := details tsId
  let time_score := score_time_of_day ts prefs
  let day_score := score_days_of_week ts prefs
  pyRound3 (1/2 * time_score + 1/2 * day_score)

/-- `preference_scoring.preference_to_penalty_linear` (default
`max_penalty = 5.0`). -/
def preference_to_penalty_linear (s : ℚ) : ℚ := 5 * (1 - s)

/-- `preference_scoring.calculate_penalty` on the `use_linear=True` path
taken by `objective.py`. -/
def calculate_penalty (s w : ℚ) : ℚ := preference_to_penalty_linear s * w

/-- `preference_scoring.normalize_enrollment_weight`. -/
def normalize_enrollment_weight (e : ℤ) : ℚ := (e : ℚ) / 100

/-! ### Proposals and the registrar (`agents.py`, spec 4.5)

`agents.Proposal` is a dataclass tagged by `proposal_type`; the two shapes
actually constructed (`"single"` with one new assignment, `"swap"` with
both) become the two constructors. -/

inductive Proposal where
  | single (course_a : String) (new_assignment_a : Assign)
  | swap (course_a : String) (new_assignment_a : Assign)
         (course_b : String) (new_assignment_b : Assign)
deriving DecidableEq

/-- Writing `d[c]["time"], d[c]["room"] = ts, room` on an embedded dict:
replaces the entry for `c` in place (position preserved), `none` when `c`
is absent (the `KeyError`). -/
def setAssign (c : String) (a : Assign) : Schedule → Option Schedule
  | [] => none
  | (c2, a2) :: rest =>
    if c2 = c then some ((c2, a) :: rest)
    else (setAssign c a rest).map (fun r => (c2, a2) :: r)

/-- The proposal-application block shared (with identical value semantics)
by `RegistrarAgent.validates` (copy then mutate) and
`NegotiationProtocol._apply_proposal` (deepcopy then mutate). -/
def applyProposal (sched : Schedule) : Proposal → Option Schedule
  | Proposal.single c a => setAssign c a sched
  | Proposal.swap c1 a1 c2 a2 => (setAssign c1 a1 sched).bind (setAssign c2 a2)

/-- The capacity pass of `RegistrarAgent.validates`:
`room_capacities[room] < enrollments[course]` fails the check. -/
def capacityOK (caps enrolls : String → ℤ) (updated : Schedule) : Bool :=
  updated.all (fun e => decide (enrolls e.1 ≤ caps e.2.room))

/-- `usage.setdefault(room, []).append(ts)`. -/
def usageAdd (room ts : String) : List (String × List String) → List (String × List String)
  | [] => [(room, [ts])]
  | (r, l) :: rest =>
    if r = room then (r, l ++ [ts]) :: rest
    else (r, l) :: usageAdd room ts rest

/-- The `usage` dict of `RegistrarAgent.validates`: room id mapped to the
time slots used in that room, in schedule order. -/
def buildUsage (updated : Schedule) : List (String × List String) :=
  updated.foldl (fun u e => usageAdd e.2.room e.2.time u) []

/-- The nested `for i / for j in range(i+1, ...)` overlap loop over one
room's slot list. -/
def noOverlapList (details : TimeSlotMap) : List String → Bool
  | [] => true
  | t :: rest =>
    rest.all (fun t2 => !timeslots_overlap t t2 details) && noOverlapList details rest

/-- The room-collision pass of `RegistrarAgent.validates`. -/
def usageOK (details : TimeSlotMap) (updated : Schedule) : Bool :=
  (buildUsage updated).all (fun e => noOverlapList details e.2)

/-- Verdict of `RegistrarAgent.validates` on the updated schedule: the
Python loop returns `False` at the first capacity violation while building
`usage`, then `False` at the first same-room overlap, else `True`; the
verdict is the conjunction of the two passes. -/
def registrarCheck (details : TimeSlotMap) (caps enrolls : String → ℤ)
    (updated : Schedule) : Bool :=
  capacityOK caps enrolls updated && usageOK details updated

/-- Spec-side view of the `usage` dict: the time slots of the courses
assigned to room `r`, in schedule order. -/
def roomSlots (updated : Schedule) (r : String) : List String :=
  (updated.filter (fun e => e.2.room = r)).map (fun e => e.2.time)

/-- `RegistrarAgent.validates`: apply the proposal to a copy of the
schedule, then check capacity and room collisions over the whole result.
`none` models the `KeyError` raised when a proposal names a course that is
not in the schedule. -/
def validates (details : TimeSlotMap) (caps enrolls : String → ℤ)
    (sched : Schedule) (prop : Proposal) : Option Bool :=
  (applyProposal sched prop).map (registrarCheck details caps enrolls)

/-! ### Professor agent slot weighting (`agents.py`, spec 4.6) -/

/-- `ProfessorAgent._score_time_slot`: weight `1.0` when the agent's
preference record is empty (Python truthiness `not self.preferences`),
otherwise `calculate_preference_score(...) + 0.1`. -/
def score_time_slot (preferences : Prefs) (details : TimeSlotMap) (tsId : String) : ℚ :=
  if preferences.isEmpty then 1
  else calculate_preference_score tsId preferences details + 1/10

/-! ### Objective components (`objective.py`, spec 4.3) -/

/-- Contribution of one inner-loop course `cj` in
`calculate_student_conflicts`: skipped when absent from the schedule,
else 1 when its slot overlaps `ts1`. -/
def conflictsWith (sched : Schedule) (details : TimeSlotMap) (ts1 cj : String) : Nat :=
  match lookupStr cj sched with
  | none => 0
  | some a2 => if timeslots_overlap ts1 a2.time details then 1 else 0

/-- The `i < j` double loop of `calculate_student_conflicts` over one
student's enrolled course list (courses absent from the schedule are
skipped in both loops). -/
def pairConflicts (sched : Schedule) (details : TimeSlotMap) : List String → Nat
  | [] => 0
  | ci :: rest =>
    (match lookupStr ci sched with
     | none => 0
     | some a1 => (rest.map (conflictsWith sched details a1.time)).sum)
    + pairConflicts sched details rest

/-- `objective.calculate_student_conflicts`. -/
def calculate_student_conflicts (sched : Schedule)
    (student_enrollments : List (String × List String)) (details : TimeSlotMap) : Nat :=
  (student_enrollments.map (fun e => pairConflicts sched details e.2)).sum

/-- Per-course term of `calculate_student_preference_penalty`
(`3.0 * (1.0 - pref_score)`, courses absent from the schedule skipped). -/
def studentCoursePenalty (sched : Schedule) (details : TimeSlotMap)
    (prefs : Prefs) (course : String) : ℚ :=
  match lookupStr course sched with
  | none => 0
  | some a => 3 * (1 - calculate_preference_score a.time prefs details)

/-- `objective.calculate_student_preference_penalty`; the per-student
record comes from `student_preferences.get(student_id, {})`, modelled by
the total map `student_preferences`. -/
def calculate_student_preference_penalty (sched : Schedule)
    (student_preferences : String → Prefs)
    (student_enrollments : List (String × List String)) (details : TimeSlotMap) : ℚ :=
  (student_enrollments.map
    (fun e => (e.2.map (studentCoursePenalty sched details (student_preferences e.1))).sum)).sum

/-- The `professor_enrollment` accumulation in
`calculate_professor_penalty`: total enrollment over all of a professor's
courses.  (The source's `professor_enrollment.get(prof, 100)` default is
unreachable: `prof` always comes from a `professors` entry, so it is a
key of the accumulated dict.) -/
def professorEnrollment (professors : List (String × String))
    (enrollments : String → ℤ) (prof : String) : ℤ :=
  ((professors.filter (fun e => e.2 = prof)).map (fun e => enrollments e.1)).sum

/-- The main loop of `objective.calculate_professor_penalty`.  The lookup
`professors[course]` is unguarded in the source, so a schedule course
missing from `professors` makes the whole computation fail (`none`),
unlike the guarded student-side computations. -/
def profPenaltyLoop (professors : List (String × String))
    (profPrefs : String → Prefs) (details : TimeSlotMap) (enrollments : String → ℤ)
    (use_enrollment_weighting : Bool) : Schedule → Option ℚ
  | [] => some 0
  | (course, a) :: rest =>
    match lookupStr course professors with
    | none => none
    | some prof =>
      let pref_score := calculate_preference_score a.time (profPrefs prof) details
      let enrollment_weight :=
        if use_enrollment_weighting then
          normalize_enrollment_weight (professorEnrollment professors enrollments prof)
        else 1
      let penalty := calculate_penalty pref_score enrollment_weight
      match profPenaltyLoop professors profPrefs details enrollments
          use_enrollment_weighting rest with
      | none => none
      | some s => some (penalty + s)

/-- `objective.calculate_professor_penalty`. -/
def calculate_professor_penalty (sched : Schedule)
    (profPrefs : String → Prefs) (professors : List (String × String))
    (details : TimeSlotMap) (enrollments : String → ℤ)
    (use_enrollment_weighting : Bool := true) : Option ℚ :=
  profPenaltyLoop professors profPrefs details enrollments use_enrollment_weighting sched

/-- Spec-side helper for the partial-data tolerance claim: the same
student-enrollment mapping with every course that is absent from the
schedule removed. -/
def filterPresent (sched : Schedule) (enrolls : List (String × List String)) :
    List (String × List String) :=
  enrolls.map (fun e => (e.1, e.2.filter (fun c => (lookupStr c sched).isSome)))

/-- The unified data dictionary built by `data_model.load_data`.
`professors` stays an association list because `objective.py` performs an
unguarded `professors[course]` lookup; the maps whose lookups every claim
guards behind well-formedness are total functions. -/
structure MacssData where
  course_ids : List String
  full_domain : List (String × String)
  professors : List (String × String)
  enrollments : String → ℤ
  room_capacities : String → ℤ
  time_slot_details : TimeSlotMap
  professor_preferences : String → Prefs
  student_enrollments : List (String × List String)
  student_preferences : String → Prefs

/-- `objective.calculate_total_cost` with its default weights
`w1=1.0, w2=0.3, w3=0.5`; `none` propagates a failing professor-penalty
lookup. -/
def calculate_total_cost (sched : Schedule) (data : MacssData)
    (w_student_conflict : ℚ := 1) (w_student_pref : ℚ := 3/10)
    (w_prof : ℚ := 1/2) : Option ℚ :=
  let student_conflicts :=
    calculate_student_conflicts sched data.student_enrollments data.time_slot_details
  match calculate_professor_penalty sched data.professor_preferences data.professors
      data.time_slot_details data.enrollments true with
  | none => none
  | some prof_penalty =>
    let student_pref_penalty :=
      calculate_student_preference_penalty sched data.student_preferences
        data.student_enrollments data.time_slot_details
    some (w_student_conflict * (student_conflicts : ℚ)
      + w_student_pref * student_pref_penalty
      + w_prof * prof_penalty)

/-! ### Constraint solver (`csp_solver.py`, spec 4.4)

`csp_solver.py` does not call the canonical `utils.timeslots_overlap`: it
carries its own local copy, and that copy calls `common_days.pop()` twice
(passing the popped day to a `get_interval` parameter that is ignored), so
it raises `KeyError` whenever the two slots share exactly one weekday.
The copy is embedded as a partial function (`none` models the `KeyError`)
and the constraint checks and the search propagate the failure.  The
external library's `getSolution` is modelled, per spec section 4.4, as
backtracking with fixed variable order (the course list) and fixed value
order (the domain list): the embedding enumerates the total assignments in
that order and evaluates each one's constraints in binding order with
short-circuiting, which yields the same first outcome — solution,
exhaustion, or escaped exception — as the pruned depth-first search. -/

/-- `csp_solver.timeslots_overlap`, the module-local duplicate of the
overlap predicate: no shared weekday gives `False`; then
`common_days.pop()` is called twice, so a common-day set of size exactly
one raises `KeyError` (`none`); with two or more shared days the strict
interval test runs as in `utils`. -/
def csp_timeslots_overlap (ts1 ts2 : String) (details : TimeSlotMap) : Option Bool :=
  let d1 := details ts1
  let d2 := details ts2
  let common_days := d1.days.dedup.filter (fun d => decide (d ∈ d2.days))
  if common_days.isEmpty then some false
  else if common_days.length = 1 then none
  else
    let i1 := get_interval ts1 details
    let i2 := get_interval ts2 details
    some (decide (i1.1 < i2.2 ∧ i2.1 < i1.2))

/-- `check_room_collision` (closure over two assignments): different rooms
never collide; with the same room the module-local overlap copy decides —
or raises. -/
def check_room_collision (details : TimeSlotMap) (a1 a2 : Assign) : Option Bool :=
  if a1.room ≠ a2.room then some true
  else (csp_timeslots_overlap a1.time a2.time details).map (fun b => !b)

/-- `check_instructor_conflict`: the two slots must not overlap, per the
module-local overlap copy — which may raise. -/
def check_instructor_conflict (details : TimeSlotMap) (a1 a2 : Assign) : Option Bool :=
  (csp_timeslots_overlap a1.time a2.time details).map (fun b => !b)

/-- Run a sequence of constraint checks in order: the first `KeyError`
escapes (`none`), the first failing check prunes (`some false`), else all
pass. -/
def runChecks : List (Option Bool) → Option Bool
  | [] => some true
  | c :: rest =>
    match c with
    | none => none
    | some false => some false
    | some true => runChecks rest

/-- The checks evaluated when one course is bound, against the already
bound prefix: the unary capacity constraint (the library pre-filters
single-variable constraints against the value before any pair check),
then the room-collision constraint against each earlier course, then the
instructor constraint against each earlier course with the same
`professors[...]` entry (posted only for such pairs — the source's
unguarded lookups are compared as `Option`s; under a well-formed domain
every course id is a key of `professors`). -/
def bindingChecks (data : MacssData) (bound : Schedule) (c : String) (a : Assign) :
    List (Option Bool) :=
  [some (decide (data.enrollments c ≤ data.room_capacities a.room))]
  ++ bound.map (fun e => check_room_collision data.time_slot_details e.2 a)
  ++ (bound.filter
      (fun e => decide (lookupStr e.1 data.professors = lookupStr c data.professors))).map
      (fun e => check_instructor_conflict data.time_slot_details e.2 a)

/-- Evaluate a total assignment's constraints in binding order, pruning or
propagating the exception at the first non-passing check exactly where the
depth-first search would. -/
def checkOrder (data : MacssData) (bound : Schedule) : Schedule → Option Bool
  | [] => some true
  | (c, a) :: rest =>
    match runChecks (bindingChecks data bound c a) with
    | none => none
    | some false => some false
    | some true => checkOrder data (bound ++ [(c, a)]) rest

/-- Every total assignment of the courses over the shared domain, in the
backtracking visit order (variables in course order, values in domain
order). -/
def allTotalAssignments : List String → List (String × String) → List Schedule
  | [], _ => [[]]
  | c :: rest, domain =>
    domain.flatMap
      (fun v => (allTotalAssignments rest domain).map (fun tail => (c, ⟨v.1, v.2⟩) :: tail))

/-- The search: the first assignment (in visit order) whose checks all
pass is the solution; a check that raises ends the whole search with the
exception; exhaustion is the distinct `None`. -/
def searchAssignments (data : MacssData) : List Schedule → Except Unit (Option Schedule)
  | [] => Except.ok none
  | s :: rest =>
    match checkOrder data [] s with
    | none => Except.error ()
    | some true => Except.ok (some s)
    | some false => searchAssignments data rest

/-- `csp_solver.find_initial_assignment` = `problem.getSolution()`:
`Except.ok (some sched)` is a returned schedule, `Except.ok none` the
`None` of an exhausted search, and `Except.error ()` an exception escaping
the solver (the local overlap copy's `KeyError`). -/
def find_initial_assignment (data : MacssData) : Except Unit (Option Schedule) :=
  searchAssignments data (allTotalAssignments data.course_ids data.full_domain)

/-! ### Negotiation engine (`negotiation.py`, spec 4.7)

Each professor agent holds a mutable random source; a deterministic agent
is embedded as a per-agent state of some type `σ` together with a step
function `gen` that consumes the state and the current schedule and
produces an optional proposal plus the successor state
(`ProfessorAgent.generate_proposal` with its `self.rng` threading).  The
loop below quantifies over `gen`, so every theorem about it covers the
concrete agents as an instance. -/

/-- One round of `NegotiationProtocol.run`: iterate the agents in order;
skip an agent that yields no proposal or whose proposal the registrar
rejects; otherwise apply the proposal, evaluate the cost, and accept only
a strict improvement (updating the schedule immediately for subsequent
agents).  `none` models an exception escaping the round. -/
def runAgents {σ : Type} (gen : σ → Schedule → Option Proposal × σ) (data : MacssData) :
    List σ → Schedule → ℚ → Bool → Option (List σ × Schedule × ℚ × Bool)
  | [], sched, cost, improved => some ([], sched, cost, improved)
  | st :: rest, sched, cost, improved =>
    let g := gen st sched
    match g.1 with
    | none =>
      (runAgents gen data rest sched cost improved).map (fun r => (g.2 :: r.1, r.2))
    | some prop =>
      match validates data.time_slot_details data.room_capacities data.enrollments
          sched prop with
      | none => none
      | some false =>
        (runAgents gen data rest sched cost improved).map (fun r => (g.2 :: r.1, r.2))
      | some true =>
        match applyProposal sched prop with
        | none => none
        | some new_sched =>
          match calculate_total_cost new_sched data with
          | none => none
          | some new_cost =>
            if new_cost < cost then
              (runAgents gen data rest new_sched new_cost true).map
                (fun r => (g.2 :: r.1, r.2))
            else
              (runAgents gen data rest sched cost improved).map
                (fun r => (g.2 :: r.1, r.2))

/-- The `for _ in range(max_rounds)` loop of `NegotiationProtocol.run`,
threading the no-improvement streak and appending the current cost to the
trace after every round. -/
def runRounds {σ : Type} (gen : σ → Schedule → Option Proposal × σ) (data : MacssData) :
    Nat → Nat → Nat → List σ → Schedule → ℚ → List ℚ → Option (Schedule × List ℚ)
  | 0, _, _, _, sched, _, trace => some (sched, trace)
  | r + 1, noImp, limit, agents, sched, cost, trace =>
    match runAgents gen data agents sched cost false with
    | none => none
    | some res =>
      let agents2 := res.1
      let sched2 := res.2.1
      let cost2 := res.2.2.1
      let improved := res.2.2.2
      let trace2 := trace ++ [cost2]
      if improved then
        runRounds gen data r 0 limit agents2 sched2 cost2 trace2
      else
        if limit ≤ noImp + 1 then some (sched2, trace2)
        else runRounds gen data r (noImp + 1) limit agents2 sched2 cost2 trace2

/-- `NegotiationProtocol.run`: start from the cost of the initial
schedule (trace entry 0), run the rounds, and return the final schedule
with the full cost trace. -/
def NegotiationProtocol_run {σ : Type} (gen : σ → Schedule → Option Proposal × σ)
    (agents : List σ) (sched0 : Schedule) (data : MacssData)
    (max_rounds : Nat := 10) (no_improve_limit : Nat := 3) :
    Option (Schedule × List ℚ) :=
  match calculate_total_cost sched0 data with
  | none => none
  | some c0 => runRounds gen data max_rounds 0 no_improve_limit agents sched0 c0 [c0]

/-- `NegotiationProtocol._make_professor_agents` seeds each agent's random
source with `random.Random(hash(prof) % (2**32))`.  CPython's built-in
string `hash` is salted per process (`PYTHONHASHSEED`), so it is embedded
as an explicit parameter `pyhash`: the hash function the running process
happens to use. -/
def agent_seed (pyhash : String → Nat) (prof : String) : Nat :=
  pyhash prof % 2 ^ 32

/-! ### Heap model of `RegistrarAgent.validates` (spec 4.5, frame claim)

To settle the claim that `validates` never mutates the caller's schedule,
the two-level Python dict is modelled with an explicit heap: the outer
dict maps each course id to the address of its inner `{"time", "room"}`
dict, and the heap is the store of inner dicts.  `updated = {c: v.copy()
for c, v in schedule.items()}` allocates a fresh cell per course; the
proposal then mutates only those fresh cells. -/

abbrev Heap := List Assign

abbrev AddrSchedule := List (String × Nat)

/-- The copy comprehension: allocate a fresh cell holding a copy of each
course's inner dict, in iteration order. -/
def copyLoop (heap : Heap) : AddrSchedule → Heap × AddrSchedule
  | [] => (heap, [])
  | (c, addr) :: rest =>
    let cell := heap.getD addr ⟨"", ""⟩
    let res := copyLoop (heap ++ [cell]) rest
    (res.1, (c, heap.length) :: res.2)

/-- The in-place field writes `updated[c]["time"], updated[c]["room"] =
ts, room` for the one or two courses named by the proposal; the `Bool` is
false when a lookup raises `KeyError` (any write already performed
persists, as in Python). -/
def mutateHeap (heap : Heap) (updated : AddrSchedule) : Proposal → Heap × Bool
  | Proposal.single c a =>
    match lookupStr c updated with
    | none => (heap, false)
    | some addr => (heap.set addr a, true)
  | Proposal.swap c1 a1 c2 a2 =>
    match lookupStr c1 updated with
    | none => (heap, false)
    | some addr1 =>
      let h1 := heap.set addr1 a1
      match lookupStr c2 updated with
      | none => (h1, false)
      | some addr2 => (h1.set addr2 a2, true)

/-- `RegistrarAgent.validates` against the heap model: copy, mutate the
copy, read the resulting schedule back and run the capacity/room checks.
Returns the final heap and the verdict (`none`: the `KeyError`). -/
def validatesHeap (details : TimeSlotMap) (caps enrolls : String → ℤ)
    (heap : Heap) (sched : AddrSchedule) (prop : Proposal) : Heap × Option Bool :=
  let cp := copyLoop heap sched
  let mt := mutateHeap cp.1 cp.2 prop
  if mt.2 then
    let vals : Schedule := cp.2.map (fun e => (e.1, mt.1.getD e.2 ⟨"", ""⟩))
    (mt.1, some (registrarCheck details caps enrolls vals))
  else (mt.1, none)

/-! ## Helper lemmas -/

theorem hasCommonDay_symm (d1 d2 : TimeSlot) : hasCommonDay d1 d2 = hasCommonDay d2 d1 := by
  unfold hasCommonDay
  rw [Bool.eq_iff_iff]
  simp only [List.any_eq_true, decide_eq_true_eq]
  constructor
  · rintro ⟨x, hx1, hx2⟩; exact ⟨x, hx2, hx1⟩
  · rintro ⟨x, hx1, hx2⟩; exact ⟨x, hx2, hx1⟩

theorem roundHalfEven_le (y : ℚ) (hi : ℤ) (h2 : y ≤ (hi : ℚ)) : roundHalfEven y ≤ hi := by
  simp only [roundHalfEven]
  have hfloor : ⌊y⌋ ≤ hi := by
    have := Int.floor_le_floor h2
    simpa using this
  split
  · exact hfloor
  · rename_i hf
    have hlt : (⌊y⌋ : ℚ) < y := by
      have : (1/2 : ℚ) ≤ y - (⌊y⌋ : ℚ) := le_of_not_lt hf
      linarith
    have hstrict : ⌊y⌋ < hi := by
      have : (⌊y⌋ : ℚ) < (hi : ℚ) := lt_of_lt_of_le hlt h2
      exact_mod_cast this
    split
    · omega
    · split <;> omega

theorem roundHalfEven_ge (y : ℚ) (lo : ℤ) (h1 : (lo : ℚ) ≤ y) : lo ≤ roundHalfEven y := by
  simp only [roundHalfEven]
  have hfloor : lo ≤ ⌊y⌋ := Int.le_floor.mpr h1
  split
  · exact hfloor
  · split
    · omega
    · split <;> omega

theorem pyRound3_bounds (x : ℚ) (h1 : 0 ≤ x) (h2 : x ≤ 1) :
    0 ≤ pyRound3 x ∧ pyRound3 x ≤ 1 := by
  unfold pyRound3
  have hlo : ((0 : ℤ) : ℚ) ≤ x * 1000 := by push_cast; nlinarith
  have hhi : x * 1000 ≤ ((1000 : ℤ) : ℚ) := by push_cast; nlinarith
  have b1 := roundHalfEven_ge (x * 1000) 0 hlo
  have b2 := roundHalfEven_le (x * 1000) 1000 hhi
  constructor
  · positivity
  · rw [div_le_one (by norm_num)]
    exact_mod_cast b2

theorem score_time_of_day_bounds (ts : TimeSlot) (prefs : Prefs) :
    0 ≤ score_time_of_day ts prefs ∧ score_time_of_day ts prefs ≤ 1 := by
  simp only [score_time_of_day]
  constructor <;> (repeat' split) <;> norm_num

theorem score_days_of_week_bounds (ts : TimeSlot) (prefs : Prefs) :
    0 ≤ score_days_of_week ts prefs ∧ score_days_of_week ts prefs ≤ 1 := by
  simp only [score_days_of_week]
  split
  · norm_num
  · split
    · rename_i hcond
      have hany : ts.days.dedup.any
          (fun d => decide (d ∈ (prefs.preferred_days.getD []).dedup)) = true := by
        rcases Bool.and_eq_true_iff.mp hcond with ⟨_, h⟩
        exact h
      have hne : ts.days.dedup ≠ [] := by
        intro h
        rw [h] at hany
        simp at hany
      have hlen : (0 : ℚ) < (ts.days.dedup.length : ℚ) := by
        have : 0 < ts.days.dedup.length := List.length_pos.mpr hne
        exact_mod_cast this
      have hfil : ((ts.days.dedup.filter
          (fun d => decide (d ∈ (prefs.preferred_days.getD []).dedup))).length : ℚ)
          ≤ (ts.days.dedup.length : ℚ) := by
        have := List.length_filter_le
          (fun d => decide (d ∈ (prefs.preferred_days.getD []).dedup)) ts.days.dedup
        exact_mod_cast this
      have hfrac0 : (0 : ℚ) ≤ ((ts.days.dedup.filter
          (fun d => decide (d ∈ (prefs.preferred_days.getD []).dedup))).length : ℚ)
          / (ts.days.dedup.length : ℚ) := by positivity
      have hfrac1 : ((ts.days.dedup.filter
          (fun d => decide (d ∈ (prefs.preferred_days.getD []).dedup))).length : ℚ)
          / (ts.days.dedup.length : ℚ) ≤ 1 := by
        rw [div_le_one hlen]
        exact hfil
      constructor <;> nlinarith
    · split <;> norm_num

theorem calculate_preference_score_bounds (tsId : String) (prefs : Prefs)
    (details : TimeSlotMap) :
    0 ≤ calculate_preference_score tsId prefs details ∧
      calculate_preference_score tsId prefs details ≤ 1 := by
  unfold calculate_preference_score
  have h1 := score_time_of_day_bounds (details tsId) prefs
  have h2 := score_days_of_week_bounds (details tsId) prefs
  exact pyRound3_bounds _ (by nlinarith [h1.1, h2.1]) (by nlinarith [h1.2, h2.2])

theorem sum_map_filter_of_zero {α M : Type} [AddCommMonoid M] (f : α → M) (p : α → Bool) :
    ∀ l : List α, (∀ x ∈ l, p x = false → f x = 0) →
      ((l.filter p).map f).sum = (l.map f).sum := by
  intro l
  induction l with
  | nil => intro _; rfl
  | cons x rest ih =>
    intro h
    have ih2 := ih (fun y hy hpy => h y (List.mem_cons_of_mem x hy) hpy)
    cases hx : p x with
    | true =>
      simp only [List.filter_cons, hx, if_true, List.map_cons, List.sum_cons, ih2]
    | false =>
      simp only [List.filter_cons, hx, Bool.false_eq_true, if_false, List.map_cons,
        List.sum_cons, ih2, h x (List.mem_cons_self x rest) hx, zero_add]

theorem pairConflicts_filter (sched : Schedule) (details : TimeSlotMap) :
    ∀ cs : List String,
      pairConflicts sched details (cs.filter (fun c => (lookupStr c sched).isSome))
        = pairConflicts sched details cs := by
  intro cs
  induction cs with
  | nil => rfl
  | cons ci rest ih =>
    cases hl : lookupStr ci sched with
    | some a1 =>
      have hsum : ((rest.filter (fun c => (lookupStr c sched).isSome)).map
          (conflictsWith sched details a1.time)).sum
          = (rest.map (conflictsWith sched details a1.time)).sum :=
        sum_map_filter_of_zero (conflictsWith sched details a1.time)
          (fun c => (lookupStr c sched).isSome) rest
          (fun x _ hx => by
            have hx2 : lookupStr x sched = none := by
              cases hx3 : lookupStr x sched with
              | none => rfl
              | some a2 => simp [hx3] at hx
            unfold conflictsWith
            rw [hx2])
      simp [List.filter_cons, hl, pairConflicts, ih, hsum]
    | none =>
      simp [List.filter_cons, hl, pairConflicts, ih]

theorem profPenaltyLoop_isSome (professors : List (String × String))
    (profPrefs : String → Prefs) (details : TimeSlotMap) (enrollments : String → ℤ)
    (uew : Bool) :
    ∀ sched : Schedule,
      (profPenaltyLoop professors profPrefs details enrollments uew sched).isSome
        = sched.all (fun e => (lookupStr e.1 professors).isSome) := by
  intro sched
  induction sched with
  | nil => rfl
  | cons e rest ih =>
    simp only [profPenaltyLoop, List.all_cons]
    cases h : lookupStr e.1 professors with
    | none => simp
    | some prof =>
      simp only [Option.isSome_some, Bool.true_and]
      cases h2 : profPenaltyLoop professors profPrefs details enrollments uew rest with
      | none => rw [h2] at ih; simpa using ih
      | some s => rw [h2] at ih; simpa using ih

theorem runChecks_true :
    ∀ l : List (Option Bool), runChecks l = some true → ∀ x ∈ l, x = some true := by
  intro l
  induction l with
  | nil => intro _ x hx; simp at hx
  | cons c rest ih =>
    intro h x hx
    match c, h with
    | some true, h =>
      rcases List.mem_cons.mp hx with h2 | h2
      · rw [h2]
      · exact ih (by simpa [runChecks] using h) x h2

theorem csp_overlap_false_canonical (ts1 ts2 : String) (details : TimeSlotMap)
    (h : csp_timeslots_overlap ts1 ts2 details = some false) :
    timeslots_overlap ts1 ts2 details = false := by
  simp only [csp_timeslots_overlap] at h
  simp only [timeslots_overlap]
  split at h
  · rename_i hempty
    have hnc : hasCommonDay (details ts1) (details ts2) = false := by
      unfold hasCommonDay
      rw [List.isEmpty_iff, List.filter_eq_nil_iff] at hempty
      rw [← Bool.not_eq_true, List.any_eq_true]
      rintro ⟨x, hx1, hx2⟩
      exact absurd hx2 (by simpa using hempty x (List.mem_dedup.mpr hx1))
    simp [hnc]
  · split at h
    · exact absurd h (by simp)
    · rename_i hempty _
      have hc : hasCommonDay (details ts1) (details ts2) = true := by
        unfold hasCommonDay
        rw [List.any_eq_true]
        rw [Bool.not_eq_true, List.isEmpty_eq_false_iff_exists_mem] at hempty
        obtain ⟨x, hx⟩ := hempty
        have := List.mem_filter.mp hx
        exact ⟨x, List.mem_dedup.mp this.1, this.2⟩
      simp only [Option.some.injEq] at h
      simp [hc, h]

theorem checkOrder_true_spec (data : MacssData) :
    ∀ (s bound : Schedule), checkOrder data bound s = some true →
      (List.Pairwise (fun e1 e2 : String × Assign =>
          check_room_collision data.time_slot_details e1.2 e2.2 = some true ∧
          (lookupStr e1.1 data.professors = lookupStr e2.1 data.professors →
            check_instructor_conflict data.time_slot_details e1.2 e2.2 = some true)) s ∧
        (∀ e2 ∈ s, ∀ e1 ∈ bound,
          check_room_collision data.time_slot_details e1.2 e2.2 = some true ∧
          (lookupStr e1.1 data.professors = lookupStr e2.1 data.professors →
            check_instructor_conflict data.time_slot_details e1.2 e2.2 = some true)) ∧
        (∀ e ∈ s, data.enrollments e.1 ≤ data.room_capacities e.2.room)) := by
  intro s
  induction s with
  | nil => intro bound _; exact ⟨List.Pairwise.nil, by simp, by simp⟩
  | cons e rest ih =>
    intro bound h
    obtain ⟨c, a⟩ := e
    simp only [checkOrder] at h
    cases hrc : runChecks (bindingChecks data bound c a) with
    | none => rw [hrc] at h; exact absurd h (by simp)
    | some b =>
      cases b with
      | false => rw [hrc] at h; exact absurd h (by simp)
      | true =>
        rw [hrc] at h
        have hall := runChecks_true _ hrc
        have hcap : data.enrollments c ≤ data.room_capacities a.room := by
          have := hall (some (decide (data.enrollments c ≤ data.room_capacities a.room)))
            (by simp [bindingChecks])
          simpa using this
        have hroom : ∀ e1 ∈ bound,
            check_room_collision data.time_slot_details e1.2 a = some true := by
          intro e1 he1
          exact hall _ (by
            simp only [bindingChecks, List.mem_append]
            exact Or.inl (Or.inr (List.mem_map.mpr ⟨e1, he1, rfl⟩)))
        have hinstr : ∀ e1 ∈ bound,
            lookupStr e1.1 data.professors = lookupStr c data.professors →
            check_instructor_conflict data.time_slot_details e1.2 a = some true := by
          intro e1 he1 hpe
          refine hall _ (by
            simp only [bindingChecks, List.mem_append]
            refine Or.inr (List.mem_map.mpr ⟨e1, List.mem_filter.mpr ⟨he1, by simpa using hpe⟩,
              rfl⟩))
        obtain ⟨ihpw, ihcross, ihcap⟩ := ih (bound ++ [(c, a)]) h
        refine ⟨?_, ?_, ?_⟩
        · rw [List.pairwise_cons]
          refine ⟨?_, ihpw⟩
          intro e2 he2
          have := ihcross e2 he2 (c, a) (by simp)
          exact this
        · intro e2 he2 e1 he1
          rcases List.mem_cons.mp he2 with h2 | h2
          · subst h2
            exact ⟨hroom e1 he1, hinstr e1 he1⟩
          · exact ihcross e2 h2 e1 (by simp [he1])
        · intro e2 he2
          rcases List.mem_cons.mp he2 with h2 | h2
          · subst h2; exact hcap
          · exact ihcap e2 h2

theorem searchAssignments_ok_some (data : MacssData) :
    ∀ (cands : List Schedule) (sched : Schedule),
      searchAssignments data cands = Except.ok (some sched) →
      sched ∈ cands ∧ checkOrder data [] sched = some true := by
  intro cands
  induction cands with
  | nil => intro sched h; exact absurd h (by simp [searchAssignments])
  | cons s rest ih =>
    intro sched h
    simp only [searchAssignments] at h
    cases hco : checkOrder data [] s with
    | none => rw [hco] at h; exact absurd h (by simp)
    | some b =>
      cases b with
      | true =>
        rw [hco] at h
        simp only [Except.ok.injEq, Option.some.injEq] at h
        subst h
        exact ⟨List.mem_cons_self _ _, hco⟩
      | false =>
        rw [hco] at h
        have := ih sched h
        exact ⟨List.mem_cons_of_mem _ this.1, this.2⟩

theorem noOverlapList_iff_pairwise (details : TimeSlotMap) :
    ∀ l : List String, noOverlapList details l = true ↔
      List.Pairwise (fun t1 t2 => timeslots_overlap t1 t2 details = false) l := by
  intro l
  induction l with
  | nil => simp [noOverlapList]
  | cons t rest ih =>
    simp [noOverlapList, List.all_eq_true, List.pairwise_cons, ih, Bool.not_eq_true']

theorem lookupStr_usageAdd (room ts r : String) :
    ∀ u : List (String × List String),
      lookupStr r (usageAdd room ts u) =
        if room = r then some ((lookupStr r u).getD [] ++ [ts]) else lookupStr r u := by
  intro u
  induction u with
  | nil =>
    simp only [usageAdd, lookupStr]
    by_cases h : room = r <;> simp [h]
  | cons e rest ih =>
    obtain ⟨r2, l⟩ := e
    by_cases h1 : r2 = room
    · subst h1
      simp only [usageAdd, if_pos rfl, lookupStr]
      by_cases h2 : r2 = r
      · subst h2
        simp [lookupStr]
      · simp [h2, lookupStr]
    · simp only [usageAdd, if_neg h1, lookupStr]
      by_cases h2 : r2 = r
      · subst h2
        have h3 : ¬room = r2 := fun h => h1 h.symm
        simp [h3, lookupStr]
      · simp [h2, ih]

theorem usageAdd_keys (room ts : String) :
    ∀ u : List (String × List String),
      (usageAdd room ts u).map Prod.fst =
        if room ∈ u.map Prod.fst then u.map Prod.fst else u.map Prod.fst ++ [room] := by
  intro u
  induction u with
  | nil => simp [usageAdd]
  | cons e rest ih =>
    obtain ⟨r2, l⟩ := e
    by_cases h1 : r2 = room
    · subst h1
      simp [usageAdd]
    · have h2 : ¬(room = r2) := fun h => h1 h.symm
      simp only [usageAdd, if_neg h1, List.map_cons, List.mem_cons, h2, false_or, ih]
      by_cases h3 : room ∈ rest.map Prod.fst <;> simp [h3]

theorem usageAdd_keys_nodup (room ts : String) (u : List (String × List String))
    (h : (u.map Prod.fst).Nodup) : ((usageAdd room ts u).map Prod.fst).Nodup := by
  rw [usageAdd_keys]
  by_cases h3 : room ∈ u.map Prod.fst
  · simpa [h3] using h
  · simpa [h3, List.nodup_append] using h

theorem buildUsage_fold_keys_nodup (updated : Schedule) :
    ∀ u : List (String × List String), (u.map Prod.fst).Nodup →
      ((updated.foldl (fun acc e => usageAdd e.2.room e.2.time acc) u).map Prod.fst).Nodup := by
  induction updated with
  | nil => intro u h; simpa using h
  | cons e rest ih =>
    intro u h
    exact ih (usageAdd e.2.room e.2.time u) (usageAdd_keys_nodup e.2.room e.2.time u h)

theorem buildUsage_fold_keys_mem (r : String) (updated : Schedule) :
    ∀ u : List (String × List String),
      (r ∈ (updated.foldl (fun acc e => usageAdd e.2.room e.2.time acc) u).map Prod.fst ↔
        r ∈ u.map Prod.fst ∨ r ∈ updated.map (fun e => e.2.room)) := by
  induction updated with
  | nil => intro u; simp
  | cons e rest ih =>
    intro u
    simp only [List.foldl_cons, List.map_cons, List.mem_cons]
    rw [ih (usageAdd e.2.room e.2.time u), usageAdd_keys]
    by_cases h3 : e.2.room ∈ u.map Prod.fst
    · simp only [h3, if_true]
      constructor
      · rintro (h | h)
        · exact Or.inl h
        · exact Or.inr (Or.inr h)
      · rintro (h | h | h)
        · exact Or.inl h
        · rw [h]; exact Or.inl h3
        · exact Or.inr h
    · simp only [h3, if_false, List.mem_append, List.mem_singleton]
      constructor
      · rintro ((h | h) | h)
        · exact Or.inl h
        · exact Or.inr (Or.inl h)
        · exact Or.inr (Or.inr h)
      · rintro (h | h | h)
        · exact Or.inl (Or.inl h)
        · exact Or.inl (Or.inr h)
        · exact Or.inr h

theorem roomSlots_cons (e : String × Assign) (rest : Schedule) (r : String) :
    roomSlots (e :: rest) r =
      if e.2.room = r then e.2.time :: roomSlots rest r else roomSlots rest r := by
  by_cases h : e.2.room = r <;> simp [roomSlots, List.filter_cons, h]

theorem buildUsage_fold_groups (r : String) (updated : Schedule) :
    ∀ u : List (String × List String),
      (lookupStr r (updated.foldl (fun acc e => usageAdd e.2.room e.2.time acc) u)).getD []
        = (lookupStr r u).getD [] ++ roomSlots updated r := by
  induction updated with
  | nil => intro u; simp [roomSlots]
  | cons e rest ih =>
    intro u
    simp only [List.foldl_cons]
    rw [ih (usageAdd e.2.room e.2.time u), lookupStr_usageAdd, roomSlots_cons]
    by_cases h : e.2.room = r
    · simp [h, List.append_assoc]
    · simp [h]

theorem lookupStr_of_mem_nodup {β : Type} (r : String) (l : β) :
    ∀ u : List (String × β), (u.map Prod.fst).Nodup → (r, l) ∈ u →
      lookupStr r u = some l := by
  intro u
  induction u with
  | nil => intro _ h; simp at h
  | cons e rest ih =>
    intro hnd hmem
    obtain ⟨r2, l2⟩ := e
    simp only [List.map_cons, List.nodup_cons] at hnd
    rcases List.mem_cons.mp hmem with h | h
    · obtain ⟨h1, h2⟩ := Prod.mk.injEq .. ▸ h.symm
      subst h1; subst h2
      simp [lookupStr]
    · have hne : r2 ≠ r := by
        intro he
        subst he
        exact hnd.1 (List.mem_map.mpr ⟨(r2, l), h, rfl⟩)
      simp only [lookupStr, if_neg hne]
      exact ih hnd.2 h

theorem roomSlots_eq_nil_of_not_mem (r : String) (updated : Schedule)
    (h : r ∉ updated.map (fun e => e.2.room)) : roomSlots updated r = [] := by
  unfold roomSlots
  rw [List.filter_eq_nil_iff.mpr, List.map_nil]
  intro e hmem
  simp only [decide_eq_true_eq]
  intro he
  exact h (List.mem_map.mpr ⟨e, hmem, he⟩)

theorem usageOK_iff (details : TimeSlotMap) (updated : Schedule) :
    usageOK details updated = true ↔
      ∀ r : String, List.Pairwise
        (fun t1 t2 => timeslots_overlap t1 t2 details = false) (roomSlots updated r) := by
  unfold usageOK buildUsage
  rw [List.all_eq_true]
  constructor
  · intro h r
    by_cases hr : r ∈ updated.map (fun e => e.2.room)
    · have hkey : r ∈ ((updated.foldl (fun acc e => usageAdd e.2.room e.2.time acc) []).map
          Prod.fst) := by
        rw [buildUsage_fold_keys_mem]
        exact Or.inr hr
      obtain ⟨⟨r2, l⟩, hmem, hfst⟩ := List.mem_map.mp hkey
      simp only at hfst
      subst hfst
      have hlook := lookupStr_of_mem_nodup r2 l _
        (buildUsage_fold_keys_nodup updated [] (by simp)) hmem
      have hgrp := buildUsage_fold_groups r2 updated []
      rw [hlook] at hgrp
      simp only [Option.getD_some, Option.getD_none, lookupStr, List.nil_append] at hgrp
      have := h (r2, l) hmem
      rw [← hgrp]
      exact (noOverlapList_iff_pairwise details l).mp this
    · rw [roomSlots_eq_nil_of_not_mem r updated hr]
      exact List.Pairwise.nil
  · intro h e hmem
    obtain ⟨r, l⟩ := e
    have hlook := lookupStr_of_mem_nodup r l _
      (buildUsage_fold_keys_nodup updated [] (by simp)) hmem
    have hgrp := buildUsage_fold_groups r updated []
    rw [hlook] at hgrp
    simp only [Option.getD_some, Option.getD_none, lookupStr, List.nil_append] at hgrp
    simp only
    rw [noOverlapList_iff_pairwise details, hgrp]
    exact h r

theorem pairwise_roomSlots_iff (details : TimeSlotMap) (updated : Schedule) :
    (∀ r : String, List.Pairwise
        (fun t1 t2 => timeslots_overlap t1 t2 details = false) (roomSlots updated r)) ↔
      List.Pairwise
        (fun e1 e2 : String × Assign => e1.2.room = e2.2.room →
          timeslots_overlap e1.2.time e2.2.time details = false) updated := by
  constructor
  · intro h
    rw [List.pairwise_iff_forall_sublist]
    intro e1 e2 hsub hroom
    have hs2 : List.Sublist ([e1, e2].filter (fun e => decide (e.2.room = e2.2.room)))
        (updated.filter (fun e => decide (e.2.room = e2.2.room))) :=
      List.Sublist.filter _ hsub
    have hfe : [e1, e2].filter (fun e => decide (e.2.room = e2.2.room)) = [e1, e2] := by
      simp [List.filter_cons, hroom]
    rw [hfe] at hs2
    have hs3 : List.Sublist [e1.2.time, e2.2.time] (roomSlots updated e2.2.room) := by
      unfold roomSlots
      have := List.Sublist.map (fun e : String × Assign => e.2.time) hs2
      simpa using this
    exact (List.pairwise_iff_forall_sublist.mp (h e2.2.room)) hs3
  · intro h r
    unfold roomSlots
    rw [List.pairwise_map]
    have hf : List.Pairwise
        (fun e1 e2 : String × Assign => e1.2.room = e2.2.room →
          timeslots_overlap e1.2.time e2.2.time details = false)
        (updated.filter (fun e => e.2.room = r)) :=
      List.Pairwise.sublist (List.filter_sublist updated) h
    refine List.Pairwise.imp_of_mem ?_ hf
    intro e1 e2 h1 h2 hrel
    have he1 : e1.2.room = r := by
      have := (List.mem_filter.mp h1).2
      simpa using this
    have he2 : e2.2.room = r := by
      have := (List.mem_filter.mp h2).2
      simpa using this
    exact hrel (he1.trans he2.symm)

theorem allTotalAssignments_keys :
    ∀ (courses : List String) (domain : List (String × String)) (s : Schedule),
      s ∈ allTotalAssignments courses domain → s.map Prod.fst = courses := by
  intro courses
  induction courses with
  | nil =>
    intro domain s hs
    simp only [allTotalAssignments, List.mem_singleton] at hs
    simp [hs]
  | cons c rest ih =>
    intro domain s hs
    simp only [allTotalAssignments, List.mem_flatMap, List.mem_map] at hs
    obtain ⟨v, _, tail, htail, hs⟩ := hs
    subst hs
    simp [ih domain tail htail]

theorem runAgents_cost_le {σ : Type} (gen : σ → Schedule → Option Proposal × σ)
    (data : MacssData) :
    ∀ (agents : List σ) (sched : Schedule) (cost : ℚ) (improved : Bool)
      (res : List σ × Schedule × ℚ × Bool),
      runAgents gen data agents sched cost improved = some res → res.2.2.1 ≤ cost := by
  intro agents
  induction agents with
  | nil =>
    intro sched cost improved res h
    simp only [runAgents, Option.some.injEq] at h
    rw [← h]
  | cons st rest ih =>
    intro sched cost improved res h
    simp only [runAgents] at h
    split at h
    · obtain ⟨r, hr, hres⟩ := Option.map_eq_some'.mp h
      rw [← hres]
      exact ih sched cost improved r hr
    · split at h
      · exact absurd h (by simp)
      · obtain ⟨r, hr, hres⟩ := Option.map_eq_some'.mp h
        rw [← hres]
        exact ih sched cost improved r hr
      · split at h
        · exact absurd h (by simp)
        · split at h
          · exact absurd h (by simp)
          · split at h
            · rename_i hlt
              obtain ⟨r, hr, hres⟩ := Option.map_eq_some'.mp h
              rw [← hres]
              exact le_of_lt (lt_of_le_of_lt (ih _ _ true r hr) hlt)
            · obtain ⟨r, hr, hres⟩ := Option.map_eq_some'.mp h
              rw [← hres]
              exact ih sched cost improved r hr

theorem runRounds_trace_invariant {σ : Type} (gen : σ → Schedule → Option Proposal × σ)
    (data : MacssData) :
    ∀ (r noImp limit : Nat) (agents : List σ) (sched : Schedule) (cost : ℚ)
      (trace : List ℚ) (s : Schedule) (tr : List ℚ),
      trace ≠ [] →
      List.Chain' (fun a b => b ≤ a) trace →
      (∀ x ∈ trace.getLast?, cost ≤ x) →
      runRounds gen data r noImp limit agents sched cost trace = some (s, tr) →
      List.Chain' (fun a b => b ≤ a) tr ∧ tr.head? = trace.head? := by
  intro r
  induction r with
  | zero =>
    intro noImp limit agents sched cost trace s tr hne hch hlast h
    simp only [runRounds, Option.some.injEq, Prod.mk.injEq] at h
    rw [← h.2]
    exact ⟨hch, rfl⟩
  | succ r2 ih =>
    intro noImp limit agents sched cost trace s tr hne hch hlast h
    simp only [runRounds] at h
    split at h
    · exact absurd h (by simp)
    · rename_i res hres
      have hcost2 : res.2.2.1 ≤ cost := runAgents_cost_le gen data agents sched cost false res hres
      have hne2 : trace ++ [res.2.2.1] ≠ [] := by simp
      have hch2 : List.Chain' (fun a b => b ≤ a) (trace ++ [res.2.2.1]) := by
        rw [List.chain'_append]
        refine ⟨hch, List.chain'_singleton _, ?_⟩
        intro x hx y hy
        simp only [List.head?_cons, Option.mem_def, Option.some.injEq] at hy
        subst hy
        exact le_trans hcost2 (hlast x hx)
      have hlast2 : ∀ x ∈ (trace ++ [res.2.2.1]).getLast?, res.2.2.1 ≤ x := by
        intro x hx
        rw [List.getLast?_concat] at hx
        simp only [Option.mem_def, Option.some.injEq] at hx
        subst hx
        exact le_refl _
      have hhead2 : (trace ++ [res.2.2.1]).head? = trace.head? := by
        cases trace with
        | nil => exact absurd rfl hne
        | cons a t => simp
      split at h
      · have := ih 0 limit res.1 res.2.1 res.2.2.1 (trace ++ [res.2.2.1]) s tr hne2 hch2
          hlast2 h
        exact ⟨this.1, this.2.trans hhead2⟩
      · split at h
        · simp only [Option.some.injEq, Prod.mk.injEq] at h
          rw [← h.2]
          exact ⟨hch2, hhead2⟩
        · have := ih (noImp + 1) limit res.1 res.2.1 res.2.2.1 (trace ++ [res.2.2.1]) s tr
            hne2 hch2 hlast2 h
          exact ⟨this.1, this.2.trans hhead2⟩

theorem lookupStr_mem {β : Type} (k : String) (v : β) :
    ∀ u : List (String × β), lookupStr k u = some v → (k, v) ∈ u := by
  intro u
  induction u with
  | nil => intro h; exact absurd h (by simp [lookupStr])
  | cons e rest ih =>
    intro h
    obtain ⟨k2, v2⟩ := e
    by_cases hk : k2 = k
    · subst hk
      simp only [lookupStr, if_true, eq_self_iff_true, Option.some.injEq] at h
      subst h
      exact List.mem_cons_self _ _
    · simp only [lookupStr, if_neg hk] at h
      exact List.mem_cons_of_mem _ (ih h)

theorem copyLoop_spec :
    ∀ (sched : AddrSchedule) (heap : Heap),
      (∃ ext, (copyLoop heap sched).1 = heap ++ ext) ∧
      (∀ e ∈ (copyLoop heap sched).2, heap.length ≤ e.2) := by
  intro sched
  induction sched with
  | nil =>
    intro heap
    exact ⟨⟨[], by simp [copyLoop]⟩, by simp [copyLoop]⟩
  | cons e rest ih =>
    intro heap
    obtain ⟨c, addr⟩ := e
    obtain ⟨⟨ext2, hext2⟩, haddr⟩ := ih (heap ++ [heap.getD addr ⟨"", ""⟩])
    constructor
    · refine ⟨[heap.getD addr ⟨"", ""⟩] ++ ext2, ?_⟩
      simp only [copyLoop]
      rw [hext2, List.append_assoc]
    · intro e2 he2
      simp only [copyLoop, List.mem_cons] at he2
      rcases he2 with h | h
      · rw [h]
      · have := haddr e2 h
        simp only [List.length_append, List.length_singleton] at this
        omega

theorem mutateHeap_frame (heap : Heap) (updated : AddrSchedule) (prop : Proposal)
    (base : Nat) (hup : ∀ e ∈ updated, base ≤ e.2) :
    ∀ i, i < base → ((mutateHeap heap updated prop).1)[i]? = heap[i]? := by
  intro i hi
  cases prop with
  | single c a =>
    simp only [mutateHeap]
    cases hl : lookupStr c updated with
    | none => rfl
    | some addr =>
      have haddr : base ≤ addr := hup (c, addr) (lookupStr_mem c addr updated hl)
      exact List.getElem?_set_ne (by omega)
  | swap c1 a1 c2 a2 =>
    simp only [mutateHeap]
    cases hl1 : lookupStr c1 updated with
    | none => rfl
    | some addr1 =>
      have haddr1 : base ≤ addr1 := hup (c1, addr1) (lookupStr_mem c1 addr1 updated hl1)
      cases hl2 : lookupStr c2 updated with
      | none => exact List.getElem?_set_ne (by omega)
      | some addr2 =>
        have haddr2 : base ≤ addr2 :=
          hup (c2, addr2) (lookupStr_mem c2 addr2 updated hl2)
        rw [List.getElem?_set_ne (by omega : addr2 ≠ i), List.getElem?_set_ne (by omega)]

theorem validatesHeap_heap_eq (details : TimeSlotMap) (caps enrolls : String → ℤ)
    (heap : Heap) (sched : AddrSchedule) (prop : Proposal) :
    (validatesHeap details caps enrolls heap sched prop).1
      = (mutateHeap (copyLoop heap sched).1 (copyLoop heap sched).2 prop).1 := by
  simp only [validatesHeap]
  cases (mutateHeap (copyLoop heap sched).1 (copyLoop heap sched).2 prop).2 <;> simp

/-! ## Claim theorems -/

/-- C5: `timeslots_overlap` returns false when the two slots share no
weekday, and otherwise is exactly the strict half-open interval test
`startA < endB ∧ startB < endA` (back-to-back slots do not conflict); it
is symmetric in its two slot arguments; the M/W/F 10:30+50min slot
overlaps the M/W/F 10:45+50min slot and does not overlap the M/W/F
11:30+50min slot. -/
theorem C5_timeslots_overlap_spec :
    (∀ (a b : String) (details : TimeSlotMap),
      (timeslots_overlap a b details =
        (hasCommonDay (details a) (details b) &&
          decide ((details a).startMinutes < (details b).endMinutes ∧
            (details b).startMinutes < (details a).endMinutes))) ∧
      timeslots_overlap a b details = timeslots_overlap b a details) ∧
    timeslots_overlap ("MWF_1030") ("MWF_1045")
      (fun id => if id = "MWF_1045" then ⟨["M","W","F"], 10, 45, 50⟩
        else ⟨["M","W","F"], 10, 30, 50⟩) = true ∧
    timeslots_overlap ("MWF_1030") ("MWF_1130")
      (fun id => if id = "MWF_1130" then ⟨["M","W","F"], 11, 30, 50⟩
        else ⟨["M","W","F"], 10, 30, 50⟩) = false := by
  refine ⟨fun a b details => ⟨?_, ?_⟩, by decide, by decide⟩
  · cases h : hasCommonDay (details a) (details b) <;>
      simp [timeslots_overlap, get_interval, TimeSlot.endMinutes, h]
  · rw [show timeslots_overlap a b details =
        (hasCommonDay (details a) (details b) &&
          decide ((details a).startMinutes < (details b).endMinutes ∧
            (details b).startMinutes < (details a).endMinutes)) from by
      cases h : hasCommonDay (details a) (details b) <;>
        simp [timeslots_overlap, get_interval, TimeSlot.endMinutes, h]]
    rw [show timeslots_overlap b a details =
        (hasCommonDay (details b) (details a) &&
          decide ((details b).startMinutes < (details a).endMinutes ∧
            (details a).startMinutes < (details b).endMinutes)) from by
      cases h : hasCommonDay (details b) (details a) <;>
        simp [timeslots_overlap, get_interval, TimeSlot.endMinutes, h]]
    rw [hasCommonDay_symm (details a) (details b)]
    rw [decide_eq_decide.mpr and_comm]

/-- C7: `calculate_preference_score` equals `0.5*timeScore + 0.5*dayScore`
rounded to 3 decimals, always lies in `[0,1]`, and on the scenario
preference {morning, preferred [M,W], avoid [F]} against the M/W/F 10:30
slot yields timeScore 1, dayScore 0.1 and total score 0.55. -/
theorem C7_calculate_preference_score_spec :
    (∀ (prefs : Prefs) (tsId : String) (details : TimeSlotMap),
      calculate_preference_score tsId prefs details =
        pyRound3 (1/2 * score_time_of_day (details tsId) prefs
          + 1/2 * score_days_of_week (details tsId) prefs) ∧
      0 ≤ calculate_preference_score tsId prefs details ∧
      calculate_preference_score tsId prefs details ≤ 1) ∧
    score_time_of_day ⟨["M","W","F"], 10, 30, 50⟩
      ⟨some ("morning"), some ["M","W"], some ["F"]⟩ = 1 ∧
    score_days_of_week ⟨["M","W","F"], 10, 30, 50⟩
      ⟨some ("morning"), some ["M","W"], some ["F"]⟩ = 1/10 ∧
    calculate_preference_score ("MWF_1030")
      ⟨some ("morning"), some ["M","W"], some ["F"]⟩
      (fun _ => ⟨["M","W","F"], 10, 30, 50⟩) = 11/20 := by
  refine ⟨fun prefs tsId details => ⟨rfl, calculate_preference_score_bounds tsId prefs details⟩,
    by decide, ?_, ?_⟩
  · norm_num +decide [score_days_of_week]
  · norm_num +decide [calculate_preference_score, score_time_of_day, score_days_of_week,
      pyRound3, roundHalfEven, Int.fract]

/-- C3 (supporting evidence): the embedded seed derivation
`hash(prof) % 2**32` from `NegotiationProtocol._make_professor_agents` is
a function of the process's string-hash function, not of the professor id
alone: two hash functions that CPython's per-process salting may realise
give different seeds for the same professor. -/
theorem C3_agent_seed_depends_on_hash :
    agent_seed (fun _ => 0) ("ProfA") = 0 ∧
    agent_seed (fun _ => 1) ("ProfA") = 1 ∧
    agent_seed (fun _ => 0) ("ProfA") ≠ agent_seed (fun _ => 1) ("ProfA") := by
  refine ⟨rfl, rfl, ?_⟩
  simp [agent_seed]

/-- C8 counterexample: for a professor agent whose preference record is
empty, `_score_time_slot` returns the constant weight 1.0, while
`score(preference, slot) + 0.1` evaluates to 0.6 — so the claimed weight
equation fails for empty-preference agents. -/
theorem C8_weight_counterexample :
    score_time_slot ⟨none, none, none⟩
      (fun _ => ⟨["M","W","F"], 10, 30, 50⟩) ("MWF_1030") = 1 ∧
    calculate_preference_score ("MWF_1030") ⟨none, none, none⟩
      (fun _ => ⟨["M","W","F"], 10, 30, 50⟩) + 1/10 = 3/5 ∧
    score_time_slot ⟨none, none, none⟩
      (fun _ => ⟨["M","W","F"], 10, 30, 50⟩) ("MWF_1030") ≠
      calculate_preference_score ("MWF_1030") ⟨none, none, none⟩
        (fun _ => ⟨["M","W","F"], 10, 30, 50⟩) + 1/10 := by
  have h1 : score_time_slot ⟨none, none, none⟩
      (fun _ => ⟨["M","W","F"], 10, 30, 50⟩) ("MWF_1030") = 1 := by decide
  have h2 : calculate_preference_score ("MWF_1030") ⟨none, none, none⟩
      (fun _ => ⟨["M","W","F"], 10, 30, 50⟩) + 1/10 = 3/5 := by
    norm_num +decide [calculate_preference_score, score_time_of_day, score_days_of_week,
      pyRound3, roundHalfEven, Int.fract]
  refine ⟨h1, h2, ?_⟩
  rw [h1, h2]
  norm_num

/-- C8 amended: in the single-reassignment branch, for every professor
agent whose preference record is nonempty, the sampling weight of a slot
equals `score(preference, slot) + 0.1`; an agent with an empty preference
record assigns every slot the constant weight 1.0 instead. -/
theorem C8_weight_amended (prefs : Prefs) (details : TimeSlotMap) (tsId : String)
    (h : prefs.isEmpty = false) :
    score_time_slot prefs details tsId
      = calculate_preference_score tsId prefs details + 1/10 := by
  unfold score_time_slot
  rw [h]
  simp

theorem C8_weight_amended_witness :
    Prefs.isEmpty ⟨some ("morning"), none, none⟩ = false ∧
    score_time_slot ⟨some ("morning"), none, none⟩
      (fun _ => ⟨["M","W","F"], 10, 30, 50⟩) ("MWF_1030")
      = calculate_preference_score ("MWF_1030") ⟨some ("morning"), none, none⟩
        (fun _ => ⟨["M","W","F"], 10, 30, 50⟩) + 1/10 :=
  ⟨rfl, C8_weight_amended ⟨some ("morning"), none, none⟩
    (fun _ => ⟨["M","W","F"], 10, 30, 50⟩) ("MWF_1030") rfl⟩

/-- C1: the claim's "never an exception" clause fails on the code.
`csp_solver.py`'s module-local overlap copy raises `KeyError` (its second
`common_days.pop()`) whenever a checked slot pair shares exactly one
weekday, so on a well-formed two-course domain whose slots are M/W/F and
F-only (both 10:30, one room), `find_initial_assignment` escapes with the
exception instead of returning a schedule or `None` — while the canonical
`utils.timeslots_overlap` on the same pair returns `true`.  The rest of
the claim holds: whenever the search does return a schedule, it is total
over the course list, no two courses sharing a room have overlapping
slots, no two courses with the same `professors[...]` entry have
overlapping slots, and every course's room has sufficient capacity. -/
theorem C1_solver_spec :
    csp_timeslots_overlap ("MWF_1030") ("F_1030")
      (fun id => if id = "F_1030" then ⟨["F"], 10, 30, 50⟩
        else ⟨["M","W","F"], 10, 30, 50⟩) = none ∧
    timeslots_overlap ("MWF_1030") ("F_1030")
      (fun id => if id = "F_1030" then ⟨["F"], 10, 30, 50⟩
        else ⟨["M","W","F"], 10, 30, 50⟩) = true ∧
    find_initial_assignment
        ⟨["CS101", "CS102"], [("MWF_1030", "R1"), ("F_1030", "R1")],
          [("CS101", "ProfA"), ("CS102", "ProfB")], fun _ => 30, fun _ => 45,
          (fun id => if id = "F_1030" then ⟨["F"], 10, 30, 50⟩
            else ⟨["M","W","F"], 10, 30, 50⟩),
          fun _ => ⟨none, none, none⟩, [], fun _ => ⟨none, none, none⟩⟩
      = Except.error () ∧
    (∀ (data : MacssData) (sched : Schedule),
      find_initial_assignment data = Except.ok (some sched) →
      sched.map Prod.fst = data.course_ids ∧
      List.Pairwise (fun e1 e2 : String × Assign => e1.2.room = e2.2.room →
        timeslots_overlap e1.2.time e2.2.time data.time_slot_details = false) sched ∧
      List.Pairwise (fun e1 e2 : String × Assign =>
        lookupStr e1.1 data.professors = lookupStr e2.1 data.professors →
        timeslots_overlap e1.2.time e2.2.time data.time_slot_details = false) sched ∧
      (∀ e ∈ sched, data.enrollments e.1 ≤ data.room_capacities e.2.room)) := by
  refine ⟨by decide, by decide, by rfl, ?_⟩
  intro data sched h
  unfold find_initial_assignment at h
  obtain ⟨hmem, hco⟩ := searchAssignments_ok_some data _ sched h
  obtain ⟨hpw, _, hcap⟩ := checkOrder_true_spec data sched [] hco
  refine ⟨allTotalAssignments_keys data.course_ids data.full_domain sched hmem, ?_, ?_, hcap⟩
  · refine hpw.imp ?_
    intro a b hab hroom
    have h1 := hab.1
    unfold check_room_collision at h1
    rw [if_neg (not_not_intro hroom)] at h1
    obtain ⟨v, hv, hnv⟩ := Option.map_eq_some'.mp h1
    have hvf : v = false := by
      cases v
      · rfl
      · exact absurd hnv (by simp)
    rw [hvf] at hv
    exact csp_overlap_false_canonical a.2.time b.2.time data.time_slot_details hv
  · refine hpw.imp ?_
    intro a b hab hprof
    have h2 := hab.2 hprof
    unfold check_instructor_conflict at h2
    obtain ⟨v, hv, hnv⟩ := Option.map_eq_some'.mp h2
    have hvf : v = false := by
      cases v
      · rfl
      · exact absurd hnv (by simp)
    rw [hvf] at hv
    exact csp_overlap_false_canonical a.2.time b.2.time data.time_slot_details hv

/-- C4: `RegistrarAgent.validates` returns true iff the schedule with the
proposal applied satisfies, over the whole schedule, (1) every course's
room capacity at least its enrollment and (2) no two courses in the same
room with overlapping slots; instructor collisions are not checked — the
concrete conjuncts exhibit a proposal that double-books professor P (the
registrar is not even given the professors mapping) yet validates. -/
theorem C4_validates_spec :
    (∀ (details : TimeSlotMap) (caps enrolls : String → ℤ) (sched : Schedule)
        (prop : Proposal) (updated : Schedule),
      applyProposal sched prop = some updated →
      (validates details caps enrolls sched prop = some true ↔
        ((∀ e ∈ updated, enrolls e.1 ≤ caps e.2.room) ∧
          List.Pairwise (fun e1 e2 : String × Assign => e1.2.room = e2.2.room →
            timeslots_overlap e1.2.time e2.2.time details = false) updated))) ∧
    lookupStr ("CS1") [("CS1", "P"), ("CS2", "P")] =
      lookupStr ("CS2") [("CS1", "P"), ("CS2", "P")] ∧
    timeslots_overlap ("MWF_1030") ("MWF_1030")
      (fun id => if id = "TTH_0900" then ⟨["T","TH"], 9, 0, 75⟩
        else ⟨["M","W","F"], 10, 30, 50⟩) = true ∧
    validates
      (fun id => if id = "TTH_0900" then ⟨["T","TH"], 9, 0, 75⟩
        else ⟨["M","W","F"], 10, 30, 50⟩)
      (fun _ => 100) (fun _ => 30)
      [("CS1", ⟨"MWF_1030", "R1"⟩), ("CS2", ⟨"TTH_0900", "R2"⟩)]
      (Proposal.single ("CS2") ⟨"MWF_1030", "R2"⟩) = some true := by
  refine ⟨?_, by decide, by decide, by decide⟩
  intro details caps enrolls sched prop updated happ
  unfold validates
  rw [happ]
  simp only [Option.map_some', Option.some.injEq]
  unfold registrarCheck
  rw [Bool.and_eq_true]
  constructor
  · rintro ⟨hcap, hus⟩
    refine ⟨?_, ?_⟩
    · intro e he
      have := (List.all_eq_true.mp hcap) e he
      simpa using this
    · exact (pairwise_roomSlots_iff details updated).mp ((usageOK_iff details updated).mp hus)
  · rintro ⟨hcap, hpw⟩
    refine ⟨?_, ?_⟩
    · unfold capacityOK
      rw [List.all_eq_true]
      intro e he
      simpa using hcap e he
    · exact (usageOK_iff details updated).mpr ((pairwise_roomSlots_iff details updated).mpr hpw)

theorem C4_validates_spec_witness :
    applyProposal [("CS1", ⟨"MWF_1030", "R1"⟩)]
        (Proposal.single ("CS1") ⟨"MWF_1030", "R2"⟩)
      = some [("CS1", ⟨"MWF_1030", "R2"⟩)] ∧
    (validates (fun _ => ⟨["M","W","F"], 10, 30, 50⟩) (fun _ => 100) (fun _ => 30)
        [("CS1", ⟨"MWF_1030", "R1"⟩)] (Proposal.single ("CS1") ⟨"MWF_1030", "R2"⟩)
      = some true ↔
      ((∀ e ∈ [(("CS1"), (⟨"MWF_1030", "R2"⟩ : Assign))],
          (fun _ : String => (30 : ℤ)) e.1 ≤ (fun _ : String => (100 : ℤ)) e.2.room) ∧
        List.Pairwise (fun e1 e2 : String × Assign => e1.2.room = e2.2.room →
          timeslots_overlap e1.2.time e2.2.time (fun _ => ⟨["M","W","F"], 10, 30, 50⟩) = false)
          [("CS1", ⟨"MWF_1030", "R2"⟩)])) :=
  ⟨by decide, C4_validates_spec.1 (fun _ => ⟨["M","W","F"], 10, 30, 50⟩)
    (fun _ => 100) (fun _ => 30) [("CS1", ⟨"MWF_1030", "R1"⟩)]
    (Proposal.single ("CS1") ⟨"MWF_1030", "R2"⟩) [("CS1", ⟨"MWF_1030", "R2"⟩)] (by decide)⟩

/-- C2: whenever `NegotiationProtocol.run` returns (for any deterministic
agents, any initial schedule, any domain data, any round and
no-improvement limits — a seed picks one such agent list), the cost trace
is monotonically non-increasing, and its entry 0 is the total cost of the
input schedule A0. -/
theorem C2_negotiation_trace_monotone {σ : Type}
    (gen : σ → Schedule → Option Proposal × σ) (agents : List σ)
    (sched0 : Schedule) (data : MacssData) (max_rounds no_improve_limit : Nat)
    (s : Schedule) (tr : List ℚ)
    (h : NegotiationProtocol_run gen agents sched0 data max_rounds no_improve_limit
      = some (s, tr)) :
    List.Chain' (fun a b => b ≤ a) tr ∧ tr.head? = calculate_total_cost sched0 data := by
  unfold NegotiationProtocol_run at h
  cases hc : calculate_total_cost sched0 data with
  | none => rw [hc] at h; exact absurd h (by simp)
  | some c0 =>
    rw [hc] at h
    have := runRounds_trace_invariant gen data max_rounds 0 no_improve_limit agents sched0
      c0 [c0] s tr (by simp) (by simp) (by simp) h
    exact ⟨this.1, by rw [this.2]; simp⟩

theorem C2_negotiation_trace_monotone_witness :
    NegotiationProtocol_run (fun (s : Unit) (_ : Schedule) => ((none : Option Proposal), s))
        [()] []
        ⟨[], [], [], fun _ => 0, fun _ => 0, fun _ => ⟨[], 0, 0, 0⟩,
          fun _ => ⟨none, none, none⟩, [], fun _ => ⟨none, none, none⟩⟩ 1 1
      = some ([], [0, 0]) ∧
    (List.Chain' (fun a b : ℚ => b ≤ a) [0, 0] ∧
      ([(0 : ℚ), 0].head? = calculate_total_cost []
        ⟨[], [], [], fun _ => 0, fun _ => 0, fun _ => ⟨[], 0, 0, 0⟩,
          fun _ => ⟨none, none, none⟩, [], fun _ => ⟨none, none, none⟩⟩)) := by
  have hc : calculate_total_cost []
      ⟨[], [], [], fun _ => 0, fun _ => 0, fun _ => ⟨[], 0, 0, 0⟩,
        fun _ => ⟨none, none, none⟩, [], fun _ => ⟨none, none, none⟩⟩ = some 0 := by
    norm_num [calculate_total_cost, calculate_professor_penalty, profPenaltyLoop,
      calculate_student_conflicts, calculate_student_preference_penalty]
  have hrun : NegotiationProtocol_run
      (fun (s : Unit) (_ : Schedule) => ((none : Option Proposal), s)) [()] []
      ⟨[], [], [], fun _ => 0, fun _ => 0, fun _ => ⟨[], 0, 0, 0⟩,
        fun _ => ⟨none, none, none⟩, [], fun _ => ⟨none, none, none⟩⟩ 1 1
      = some ([], [0, 0]) := by
    rw [NegotiationProtocol_run, hc]
    norm_num [runRounds, runAgents]
  exact ⟨hrun, C2_negotiation_trace_monotone
    (fun (s : Unit) (_ : Schedule) => ((none : Option Proposal), s)) [()] []
    ⟨[], [], [], fun _ => 0, fun _ => 0, fun _ => ⟨[], 0, 0, 0⟩,
      fun _ => ⟨none, none, none⟩, [], fun _ => ⟨none, none, none⟩⟩ 1 1 [] [0, 0] hrun⟩

/-- C6: `RegistrarAgent.validates` never mutates the caller's schedule.
In the heap model of the two-level schedule dict, every inner dict the
input schedule points at is unchanged after the call, whatever the
verdict: the copy comprehension allocates fresh cells and the proposal's
writes touch only those. -/
theorem C6_validates_frame (details : TimeSlotMap) (caps enrolls : String → ℤ)
    (heap : Heap) (sched : AddrSchedule) (prop : Proposal) (c : String) (addr : Nat)
    (_hmem : (c, addr) ∈ sched) (hlt : addr < heap.length) :
    ((validatesHeap details caps enrolls heap sched prop).1)[addr]? = heap[addr]? := by
  rw [validatesHeap_heap_eq]
  obtain ⟨⟨ext, hext⟩, hups⟩ := copyLoop_spec sched heap
  rw [mutateHeap_frame (copyLoop heap sched).1 (copyLoop heap sched).2 prop heap.length
    hups addr hlt]
  rw [hext]
  exact List.getElem?_append_left hlt

theorem C6_validates_frame_witness :
    (("CS101"), 0) ∈ [(("CS101"), 0)] ∧ 0 < [(⟨"MWF_1030", "R1"⟩ : Assign)].length ∧
    ((validatesHeap (fun _ => ⟨["M","W","F"], 10, 30, 50⟩) (fun _ => 45) (fun _ => 30)
        [⟨"MWF_1030", "R1"⟩] [(("CS101"), 0)]
        (Proposal.single ("CS101") ⟨"MWF_1030", "R2"⟩)).1)[0]?
      = [(⟨"MWF_1030", "R1"⟩ : Assign)][0]? :=
  ⟨by decide, by decide,
    C6_validates_frame (fun _ => ⟨["M","W","F"], 10, 30, 50⟩) (fun _ => 45) (fun _ => 30)
      [⟨"MWF_1030", "R1"⟩] [(("CS101"), 0)]
      (Proposal.single ("CS101") ⟨"MWF_1030", "R2"⟩) ("CS101") 0 (by decide) (by decide)⟩

/-- C9: the student-conflict count and the student preference penalty
only ever consult a student's enrolled courses that are present in the
schedule: removing the absent courses from every enrollment list leaves
both computations unchanged (and both are total by construction — the
guarded lookups cannot fail). -/
theorem C9_missing_courses_skipped :
    ∀ (sched : Schedule) (enrolls : List (String × List String))
      (details : TimeSlotMap) (sprefs : String → Prefs),
      calculate_student_conflicts sched enrolls details
        = calculate_student_conflicts sched (filterPresent sched enrolls) details ∧
      calculate_student_preference_penalty sched sprefs enrolls details
        = calculate_student_preference_penalty sched sprefs (filterPresent sched enrolls)
            details := by
  intro sched enrolls details sprefs
  constructor
  · unfold calculate_student_conflicts filterPresent
    rw [List.map_map]
    refine congrArg List.sum (List.map_congr_left ?_).symm
    intro e _
    exact pairConflicts_filter sched details e.2
  · unfold calculate_student_preference_penalty filterPresent
    rw [List.map_map]
    refine congrArg List.sum (List.map_congr_left ?_).symm
    intro e _
    exact sum_map_filter_of_zero (studentCoursePenalty sched details (sprefs e.1))
      (fun c => (lookupStr c sched).isSome) e.2
      (fun x _ hx => by
        have hx2 : lookupStr x sched = none := by
          cases hx3 : lookupStr x sched with
          | none => rfl
          | some a => simp [hx3] at hx
        unfold studentCoursePenalty
        rw [hx2])

/-- C10: `calculate_professor_penalty` performs the unguarded lookup
`professors[course]` for every schedule entry: it succeeds exactly when
every course of the schedule appears in the `professors` mapping, and a
schedule containing an unmapped course makes it — and `calculate_total_cost`,
which invokes it — fail (`none`) instead of skipping the course. -/
theorem C10_professor_penalty_totality :
    (∀ (sched : Schedule) (profPrefs : String → Prefs)
      (professors : List (String × String)) (details : TimeSlotMap)
      (enrollments : String → ℤ) (uew : Bool),
      (calculate_professor_penalty sched profPrefs professors details enrollments uew).isSome
        = sched.all (fun e => (lookupStr e.1 professors).isSome)) ∧
    calculate_professor_penalty [(("CS999"), ⟨"MWF_1030", "R1"⟩)]
      (fun _ => ⟨none, none, none⟩) [] (fun _ => ⟨["M","W","F"], 10, 30, 50⟩)
      (fun _ => 30) true = none ∧
    calculate_total_cost [(("CS999"), ⟨"MWF_1030", "R1"⟩)]
      ⟨["CS999"], [("MWF_1030", "R1")], [], fun _ => 30, fun _ => 45,
        fun _ => ⟨["M","W","F"], 10, 30, 50⟩, fun _ => ⟨none, none, none⟩, [],
        fun _ => ⟨none, none, none⟩⟩ = none := by
  refine ⟨fun sched profPrefs professors details enrollments uew =>
    profPenaltyLoop_isSome professors profPrefs details enrollments uew sched,
    by decide, by decide⟩

end MACSS
